import Mathlib

/-!
Shallow embedding of the ai-index incremental indexing and hybrid retrieval
pipeline (the index builder, the local vector store, and the query tools),
together with theorems settling the specification claims.

Modelling conventions used throughout:

* JavaScript strings are Lean `String`s; the string algorithms are implemented
  on `List Char` (the claims are settled on ASCII data, where JavaScript's
  UTF-16 `length` agrees with the character count).
* The sha256 content hash is an abstract parameter `hashFn : String → String`.
  The md5 chunk id `md5(filePath ++ ":" ++ i)` is abstracted as the pair
  `(filePath, i)`: both digests are treated as collision-free fingerprints of
  their input, exactly as the design assumes.
* The embedding model and the vectra nearest-neighbour index are external
  collaborators: embedding vectors play no role in any claim and are dropped;
  the ranked output of `index.queryItems` enters the query models as an input
  parameter.
* JavaScript numbers (relevance scores) are modelled as `Rat`.
* A JavaScript `Map` (and an object used as a map) is modelled as an
  insertion-ordered list with unique keys; `Array.prototype.sort` (stable,
  per the ECMAScript specification) with the comparator
  `(a, b) => b.score - a.score` is modelled as a stable insertion sort
  descending by score.
-/

/-- ASCII whitespace test backing the models of `String.prototype.trim` and of
splitting on whitespace. -/
def isWsp (c : Char) : Bool := c = ' ' || c = '\t' || c = '\n' || c = '\r'

/-- Model of `String.prototype.split(sep)` for a one-character separator, on
character lists. `split` always returns at least one (possibly empty) piece. -/
def splitOnChar (sep : Char) : List Char → List (List Char)
  | [] => [[]]
  | c :: t =>
    match splitOnChar sep t with
    | [] => [[c]]
    | h :: r => if c = sep then [] :: h :: r else (c :: h) :: r

/-- Model of `Array.prototype.join('\n')` on character lists. -/
def joinNl : List (List Char) → List Char
  | [] => []
  | [l] => l
  | l :: ls => l ++ '\n' :: joinNl ls

/-- Model of `String.prototype.trim` (ASCII whitespace). -/
def trimList (l : List Char) : List Char :=
  ((l.dropWhile isWsp).reverse.dropWhile isWsp).reverse

/-- Substring test on character lists, model of `String.prototype.includes`. -/
def containsList (l pat : List Char) : Bool :=
  (List.range (l.length + 1)).any (fun i => pat.isPrefixOf (l.drop i))

/-- Model of `String.prototype.includes` on `String`. -/
def sIncludes (s pat : String) : Bool := containsList s.data pat.data

/-- ASCII model of `String.prototype.toLowerCase` on one character. -/
def lowerChar (c : Char) : Char :=
  if 65 ≤ c.toNat ∧ c.toNat ≤ 90 then Char.ofNat (c.toNat + 32) else c

/-- ASCII model of `String.prototype.toLowerCase` on character lists. -/
def lowerList (l : List Char) : List Char := l.map lowerChar

/-- Model of `String.prototype.endsWith`. -/
def sEndsWith (s pat : String) : Bool := pat.data.isSuffixOf s.data

/-- Stable insertion of `x` in front of the first strictly smaller element:
together with `sortDesc` this models JavaScript's stable
`Array.prototype.sort((a, b) => b.score - a.score)`. -/
def insertDesc (score : α → Rat) (x : α) : List α → List α
  | [] => [x]
  | y :: ys => if score y ≤ score x then x :: y :: ys else y :: insertDesc score x ys

/-- Stable sort descending by `score`; model of
`Array.prototype.sort((a, b) => b.score - a.score)`. -/
def sortDesc (score : α → Rat) : List α → List α
  | [] => []
  | x :: xs => insertDesc score x (sortDesc score xs)

/-- Model of Node's `path.basename` for normalized paths (the indexing target
is always `path.resolve`d, which strips any trailing slash). -/
def basename (p : String) : String :=
  ⟨(splitOnChar '/' p.data).getLastD []⟩

/-- Model of Node's `path.extname`: the final dot-suffix of the basename,
empty for extensionless names and for dotfiles. -/
def extname (p : String) : String :=
  let parts := splitOnChar '.' (basename p).data
  if parts.length ≤ 1 then ""
  else if parts.length = 2 ∧ parts.headD [] = [] then ""
  else "." ++ (⟨parts.getLastD []⟩ : String)

/-- Area classification from `getFileArea` in the index builder:
path-substring rules, first matching rule wins, unmatched paths are `other`. -/
def getFileArea (filePath : String) : String :=
  if sIncludes filePath "/app/api/" || sIncludes filePath "/app/models/" ||
      sIncludes filePath "/app/helpers/" || sIncludes filePath "/app/jobs/" ||
      sIncludes filePath "/app/worker" || sIncludes filePath "/app/server" then
    "backend"
  else if sIncludes filePath "/app/components/" || sIncludes filePath "/app/pages/" ||
      sIncludes filePath "/app/data/" || sIncludes filePath "/app/public/" then
    "frontend"
  else if sIncludes filePath "/terraform/" || sIncludes filePath "/k8s/" ||
      sIncludes filePath "/docker" || sIncludes filePath "Dockerfile" then
    "infra"
  else if sIncludes filePath "/docs/" || sIncludes filePath "README" ||
      sIncludes filePath "DOCUMENTATION" then
    "docs"
  else "other"

/-- Language classification from `getLanguage`: lower-cased file-extension
lookup table, unknown extensions classify as `unknown`. -/
def getLanguage (filePath : String) : String :=
  let ext : String := ⟨lowerList (extname filePath).data⟩
  if ext = ".js" || ext = ".mjs" || ext = ".jsx" then "javascript"
  else if ext = ".ts" || ext = ".tsx" then "typescript"
  else if ext = ".py" then "python"
  else if ext = ".go" then "go"
  else if ext = ".tf" then "terraform"
  else if ext = ".yml" || ext = ".yaml" then "yaml"
  else if ext = ".json" then "json"
  else if ext = ".md" then "markdown"
  else if ext = ".scss" then "scss"
  else if ext = ".css" then "css"
  else if ext = ".sql" then "sql"
  else if ext = ".sh" then "bash"
  else "unknown"

/-- Chunk ids are `md5(filePath ++ ":" ++ i)` in the source; md5 is abstracted
as the injective pairing of the path with the window start offset. -/
abbrev ChunkId := String × Nat

/-- A chunk as produced by `chunkFile` (the embedding vector, attached later
by the processing loop, plays no role in any claim and is dropped). -/
structure Chunk where
  id : ChunkId
  repo_path : String
  content : String
  language : String
  area : String
  parent_id : String
  start_line : Nat
  end_line : Nat
  deriving DecidableEq

/-- Window size selected inside `chunkFile`: 50 lines for markdown-classified
or docs-area files, 30 otherwise. -/
def maxLinesPerChunk (language area : String) : Nat :=
  if language = "markdown" || area = "docs" then 50 else 30

/-- The sliding-window loop of `chunkFile`
(`for (let i = 0; i < lines.length; i += maxLinesPerChunk - overlap)` with
`overlap = 5`). `fuel` only bounds the iteration count; `chunkFile` passes
`lines.length + 1`, which is always enough because the stride is at least 25. -/
def chunkLoop (filePath : String) (lines : List (List Char))
    (language area : String) (maxLines : Nat) : Nat → Nat → List Chunk
  | _, 0 => []
  | i, fuel + 1 =>
    if i < lines.length then
      let chunkContent := joinNl ((lines.drop i).take maxLines)
      let rest := chunkLoop filePath lines language area maxLines (i + (maxLines - 5)) fuel
      if 50 < (trimList chunkContent).length then
        { id := (filePath, i), repo_path := filePath, content := ⟨chunkContent⟩,
          language := language, area := area, parent_id := filePath,
          start_line := i, end_line := min (i + maxLines) lines.length } :: rest
      else rest
    else []

/-- Model of `chunkFile`: split the content into lines, slide the classified
window with overlap 5, and keep the windows whose trimmed text is longer
than 50 characters. -/
def chunkFile (filePath : String) (content : String) : List Chunk :=
  let lines := splitOnChar '\n' content.data
  let language := getLanguage filePath
  let area := getFileArea filePath
  chunkLoop filePath lines language area (maxLinesPerChunk language area) 0
    (lines.length + 1)

/-- One line of `ai_index/search/chunkmap.jsonl`; `endL` renders the JSONL
field `end`, which is a Lean keyword. -/
structure ChunkMapEntry where
  chunk_id : ChunkId
  file : String
  start : Nat
  endL : Nat
  parent_id : String
  area : String
  deriving DecidableEq

/-- Chunk-map line staged for a chunk in the processing loop. -/
def chunkToEntry (c : Chunk) : ChunkMapEntry :=
  { chunk_id := c.id, file := c.repo_path, start := c.start_line,
    endL := c.end_line, parent_id := c.parent_id, area := c.area }

/-- Lookup in a JavaScript object used as a string map
(`previousHashes[file]`). -/
def alookup (k : String) : List (String × String) → Option String
  | [] => none
  | (a, b) :: t => if a = k then some b else alookup k t

/-- Model of `LocalVectorStore.removeDocumentsByFile`: delete every stored
item whose `repo_path` metadata equals the given path, returning the store. -/
def removeDocumentsByFile (store : List Chunk) (filePath : String) : List Chunk :=
  store.filter (fun d => d.repo_path ≠ filePath)

/-- Model of vectra's `upsertItem` as driven by
`LocalVectorStore.addDocuments`: replace the item carrying the same id, or
append a fresh one. -/
def upsertItem (store : List Chunk) (c : Chunk) : List Chunk :=
  if store.any (fun d => d.id = c.id) then
    store.map (fun d => if d.id = c.id then c else d)
  else store ++ [c]

/-- A file discovered by the glob walk: relative path plus full text content.
The model assumes every discovered file reads successfully; a read error would
only drop the file from both `currentHashes` and `filesToProcess`. -/
structure FsFile where
  path : String
  content : String
  deriving DecidableEq

/-- Persistent state left behind by one `processFiles` run: the vector store,
the persisted hash store (`ai_index/file_hashes.json`) and the persisted chunk
map (`ai_index/search/chunkmap.jsonl`). -/
structure RunResult where
  store : List Chunk
  hashStoreDisk : List (String × String)
  chunkMapDisk : List ChunkMapEntry
  deriving DecidableEq

/-- The `currentHashes` object built by the scan loop: a hash for every
readable file, recorded before the file is processed. -/
def computeCurrentHashes (hashFn : String → String) (files : List FsFile) :
    List (String × String) :=
  files.map (fun f => (f.path, hashFn f.content))

/-- The `filesToProcess` partition: a file is selected when force mode is on,
its path is new, or its hash changed
(`FORCE_REINDEX || previousHashes[file] !== currentHash`). -/
def filesToProcess (hashFn : String → String) (force : Bool)
    (prev : List (String × String)) (files : List FsFile) : List FsFile :=
  files.filter (fun f => force || alookup f.path prev ≠ some (hashFn f.content))

/-- Per-file body of the processing loop: remove the file's outdated chunks
when it was previously indexed (a sha256 digest is never the empty string, so
`if (previousHashes[file])` is a presence test), then chunk, embed and stage.
`procFails` models a chunk/embed exception caught by the per-file handler; the
failure is modelled as thrown before any chunk of the file is staged, and the
run continues with the next file. -/
def processOneFile (procFails : String → Bool) (prev : List (String × String))
    (acc : List Chunk × List ChunkMapEntry) (f : FsFile) :
    List Chunk × List ChunkMapEntry :=
  let store1 :=
    if alookup f.path prev ≠ none then removeDocumentsByFile acc.1 f.path else acc.1
  if procFails f.path then (store1, acc.2)
  else
    let chunks := chunkFile f.path f.content
    (chunks.foldl upsertItem store1, acc.2 ++ chunks.map chunkToEntry)

/-- Model of `processFiles`: scan and hash every discovered file, partition
against the previous hash store, return with nothing touched when no file
needs processing and force mode is off, otherwise process the selected files,
sweep the files deleted from disk out of the store, and persist the new hash
store and the freshly rebuilt chunk map. Bulk batching (`MAX_BULK_SIZE`) is
transparent here because every staged batch is flushed before the run ends. -/
def processFiles (hashFn : String → String) (procFails : String → Bool)
    (force : Bool) (prevHashes : List (String × String))
    (prevChunkMapDisk : List ChunkMapEntry) (store0 : List Chunk)
    (files : List FsFile) : RunResult :=
  let currentHashes := computeCurrentHashes hashFn files
  let toProcess := filesToProcess hashFn force prevHashes files
  if toProcess.length = 0 ∧ force = false then
    { store := store0, hashStoreDisk := prevHashes, chunkMapDisk := prevChunkMapDisk }
  else
    let processed := toProcess.foldl (processOneFile procFails prevHashes) (store0, [])
    let deletedFiles := (prevHashes.map Prod.fst).filter
      (fun p => alookup p currentHashes = none)
    let sweptStore := deletedFiles.foldl removeDocumentsByFile processed.1
    { store := sweptStore, hashStoreDisk := currentHashes,
      chunkMapDisk := processed.2 }

/-- Sanitization of the index key: any character outside `[a-zA-Z0-9_-]`
becomes an underscore. -/
def sanitizeChar (c : Char) : Char :=
  if (97 ≤ c.toNat ∧ c.toNat ≤ 122) ∨ (65 ≤ c.toNat ∧ c.toNat ≤ 90) ∨
      (48 ≤ c.toNat ∧ c.toNat ≤ 57) ∨ c = '_' ∨ c = '-' then c
  else '_'

/-- Model of the index key (`INDEX_NAME` in both the builder and the local
query tool): the sanitized basename of the resolved target folder. -/
def indexNameOf (root : String) : String :=
  ⟨(basename root).data.map sanitizeChar⟩

/-- Storage location of a local index (`LocalVectorStore`):
`path.join(dataPath, indexName)`. -/
def indexStorePath (dataPath root : String) : String :=
  dataPath ++ "/" ++ indexNameOf root

/-! Helper lemmas about the deletion sweep and the hash scan. -/

theorem mem_removeDocumentsByFile {d : Chunk} {s : List Chunk} {q : String}
    (h : d ∈ removeDocumentsByFile s q) : d ∈ s ∧ d.repo_path ≠ q := by
  unfold removeDocumentsByFile at h
  have h2 := List.mem_filter.mp h
  exact ⟨h2.1, by simpa using h2.2⟩

theorem foldl_remove_subset {del : List String} {s : List Chunk} {d : Chunk}
    (h : d ∈ del.foldl removeDocumentsByFile s) : d ∈ s := by
  induction del generalizing s with
  | nil => simpa using h
  | cons q t ih => exact (mem_removeDocumentsByFile (ih h)).1

theorem foldl_remove_removes {del : List String} {p : String} (hp : p ∈ del)
    {s : List Chunk} {d : Chunk}
    (h : d ∈ del.foldl removeDocumentsByFile s) : d.repo_path ≠ p := by
  induction del generalizing s with
  | nil => cases hp
  | cons q t ih =>
    rcases List.mem_cons.mp hp with hq | ht
    · subst hq
      exact (mem_removeDocumentsByFile (foldl_remove_subset h)).2
    · exact ih ht h

theorem alookup_currentHashes_none (hashFn : String → String) (p : String)
    (files : List FsFile) (h : ∀ f ∈ files, f.path ≠ p) :
    alookup p (computeCurrentHashes hashFn files) = none := by
  induction files with
  | nil => rfl
  | cons f t ih =>
    have hf : ¬(f.path = p) := h f (List.mem_cons_self f t)
    show alookup p ((f.path, hashFn f.content) :: computeCurrentHashes hashFn t) = none
    simp only [alookup, if_neg hf]
    exact ih (fun g hg => h g (List.mem_cons_of_mem f hg))

/-- C1: re-running the indexing pipeline over a file set in which every file
still hashes to the value recorded in the previous hash store, with the force
flag off, selects zero files to process and returns with the vector store
(hence its chunk count), the persisted hash store and the persisted chunk map
all unchanged; in particular no file is re-chunked or re-embedded. -/
theorem C1_unchanged_rerun_processes_nothing
    (hashFn : String → String) (procFails : String → Bool)
    (prev : List (String × String)) (prevCm : List ChunkMapEntry)
    (store0 : List Chunk) (files : List FsFile)
    (h : ∀ f ∈ files, alookup f.path prev = some (hashFn f.content)) :
    filesToProcess hashFn false prev files = [] ∧
    processFiles hashFn procFails false prev prevCm store0 files =
      { store := store0, hashStoreDisk := prev, chunkMapDisk := prevCm } := by
  have hf : filesToProcess hashFn false prev files = [] := by
    unfold filesToProcess
    refine List.filter_eq_nil_iff.mpr ?_
    intro f hm
    simp [h f hm]
  exact ⟨hf, by simp [processFiles, hf]⟩

/-- Witness for C1 at a concrete one-file repository. -/
theorem C1_unchanged_rerun_processes_nothing_witness :
    filesToProcess (fun s => s) false [("a.js", "body")] [⟨"a.js", "body"⟩] = [] ∧
    processFiles (fun s => s) (fun _ => false) false [("a.js", "body")] [] []
        [⟨"a.js", "body"⟩] =
      { store := [], hashStoreDisk := [("a.js", "body")], chunkMapDisk := [] } :=
  C1_unchanged_rerun_processes_nothing (fun s => s) (fun _ => false)
    [("a.js", "body")] [] [] [⟨"a.js", "body"⟩] (by decide)

/-- A stored chunk of the file `gone.js`, used by the C2 counterexample. -/
def goneChunk : Chunk :=
  { id := ("gone.js", 0), repo_path := "gone.js", content := "deleted file chunk",
    language := "javascript", area := "other", parent_id := "gone.js",
    start_line := 0, end_line := 1 }

/-- C2 counterexample: when one previously indexed file is deleted from disk
and nothing else changed, the run takes the early `No files need reindexing`
return, so the deleted file's chunk stays in the vector store and its key
stays in the persisted hash store — contradicting the claim's `regardless of
whether any other file changed in that run`. -/
theorem C2_counterexample_deletion_only_run :
    processFiles (fun s => s) (fun _ => false) false [("gone.js", "h")] []
        [goneChunk] [] =
      { store := [goneChunk], hashStoreDisk := [("gone.js", "h")],
        chunkMapDisk := [] } ∧
    goneChunk.repo_path = "gone.js" := by decide

/-- C2 amended: if a path `p` is present in the previous hash store and absent
from the current file set, then after an indexing run that does not take the
early return (at least one file is selected for processing, or force mode is
on) every chunk of `p` is gone from the vector store and `p` is absent from
the persisted hash store. -/
theorem C2_amended_deletion_sweep_when_run_proceeds
    (hashFn : String → String) (procFails : String → Bool) (force : Bool)
    (prev : List (String × String)) (prevCm : List ChunkMapEntry)
    (store0 : List Chunk) (files : List FsFile) (p : String)
    (hp : p ∈ prev.map Prod.fst)
    (habsent : ∀ f ∈ files, f.path ≠ p)
    (hrun : ¬(filesToProcess hashFn force prev files = [] ∧ force = false)) :
    (∀ d ∈ (processFiles hashFn procFails force prev prevCm store0 files).store,
      d.repo_path ≠ p) ∧
    alookup p
      (processFiles hashFn procFails force prev prevCm store0 files).hashStoreDisk
      = none := by
  have hcur : alookup p (computeCurrentHashes hashFn files) = none :=
    alookup_currentHashes_none hashFn p files habsent
  have hcond : ¬((filesToProcess hashFn force prev files).length = 0 ∧
      force = false) := by
    intro hc
    exact hrun ⟨List.length_eq_zero.mp hc.1, hc.2⟩
  constructor
  · intro d hd
    simp only [processFiles] at hd
    rw [if_neg hcond] at hd
    have hmem : p ∈ (prev.map Prod.fst).filter
        (fun q => alookup q (computeCurrentHashes hashFn files) = none) := by
      refine List.mem_filter.mpr ⟨hp, ?_⟩
      simp [hcur]
    exact foldl_remove_removes hmem hd
  · simp only [processFiles]
    rw [if_neg hcond]
    exact hcur

/-- Witness for the amended C2: deleting `gone.js` while `a.js` changed. -/
theorem C2_amended_deletion_sweep_witness :
    (∀ d ∈ (processFiles (fun s => s) (fun _ => false) false
        [("gone.js", "h"), ("a.js", "old")] [] [goneChunk]
        [⟨"a.js", "new"⟩]).store, d.repo_path ≠ "gone.js") ∧
    alookup "gone.js"
      (processFiles (fun s => s) (fun _ => false) false
        [("gone.js", "h"), ("a.js", "old")] [] [goneChunk]
        [⟨"a.js", "new"⟩]).hashStoreDisk = none :=
  C2_amended_deletion_sweep_when_run_proceeds (fun s => s) (fun _ => false) false
    [("gone.js", "h"), ("a.js", "old")] [] [goneChunk] [⟨"a.js", "new"⟩]
    "gone.js" (by decide) (by decide) (by decide)

/-- Content of the file whose processing fails in the C3 scenario: long enough
for `chunkFile` to produce one chunk. -/
def failingContent : String :=
  "const averylongvariablename = 12345; // pad to pass the length filter"

set_option maxRecDepth 4000 in
/-- C3: behaviour at the failing input. A new file whose chunk/embed step
throws still gets its hash persisted (the scan loop records `currentHashes`
before processing and `saveFileHashes(currentHashes)` writes all of it), so
the next run over identical content selects nothing to process even though the
file's chunks never reached the store — contradicting the claim that a failed
file's hash is not recorded as current. -/
theorem C3_failed_file_hash_recorded_anyway :
    processFiles (fun s => s) (fun p => p = "a.js") false [] [] []
        [⟨"a.js", failingContent⟩] =
      { store := [], hashStoreDisk := [("a.js", failingContent)],
        chunkMapDisk := [] } ∧
    (chunkFile "a.js" failingContent).length = 1 ∧
    filesToProcess (fun s => s) false [("a.js", failingContent)]
        [⟨"a.js", failingContent⟩] = [] := by decide

/-- A 29-line JavaScript file (13 characters per line): shorter than the
30-line window, yet both the window at line 0 and the window at line 25 pass
the 50-character minimum-content filter. -/
def twoWindowContent : String := ⟨joinNl (List.replicate 29 ("aaaaaaaaaaaaa".data))⟩

set_option maxRecDepth 40000 in
/-- C7 counterexample: a file with fewer lines than its chunk window can still
produce two chunks, because the loop strides by `window - overlap = 25` and a
second window starts at line 25 while 25 < 29 < 30. -/
theorem C7_counterexample_two_chunks_under_window :
    (splitOnChar '\n' twoWindowContent.data).length = 29 ∧
    maxLinesPerChunk (getLanguage "a.js") (getFileArea "a.js") = 30 ∧
    (chunkFile "a.js" twoWindowContent).length = 2 := by decide

theorem chunkLoop_stop (fp : String) (lines : List (List Char))
    (lang area : String) (m i fuel : Nat) (hi : lines.length ≤ i) :
    chunkLoop fp lines lang area m i fuel = [] := by
  cases fuel with
  | zero => rfl
  | succ f => simp [chunkLoop, Nat.not_lt.mpr hi]

theorem chunkLoop_le_one (fp : String) (lines : List (List Char))
    (lang area : String) (m i n : Nat) (h2 : lines.length ≤ i + (m - 5)) :
    (chunkLoop fp lines lang area m i (n + 1)).length ≤ 1 := by
  by_cases hi : i < lines.length
  · simp only [chunkLoop, if_pos hi]
    rw [chunkLoop_stop _ _ _ _ _ _ _ h2]
    split <;> simp
  · simp [chunkLoop, hi]

/-- C7 amended: the single-window guarantee holds for files with at most
`window - overlap` lines (25 non-docs lines, 45 docs lines): such a file
produces exactly one chunk, or zero when the single candidate's trimmed text
is not longer than the 50-character minimum-content threshold. Files with
between `window - overlap + 1` and `window - 1` lines can produce two chunks
(see the counterexample). -/
theorem C7_amended_single_window_within_stride
    (filePath content : String)
    (h : (splitOnChar '\n' content.data).length ≤
      maxLinesPerChunk (getLanguage filePath) (getFileArea filePath) - 5) :
    (chunkFile filePath content).length ≤ 1 := by
  show (chunkLoop filePath (splitOnChar '\n' content.data) (getLanguage filePath)
    (getFileArea filePath)
    (maxLinesPerChunk (getLanguage filePath) (getFileArea filePath)) 0
    ((splitOnChar '\n' content.data).length + 1)).length ≤ 1
  exact chunkLoop_le_one _ _ _ _ _ _ _ (by omega)

/-- Witness for the amended C7 at a concrete one-line file. -/
theorem C7_amended_single_window_witness :
    (chunkFile "a.js" failingContent).length ≤ 1 :=
  C7_amended_single_window_within_stride "a.js" failingContent (by decide)

/-- C10 counterexample: two distinct root directories sharing a basename get
the same index key and the same on-disk index location, so their chunks land
in (and are swept out of) one and the same index. -/
theorem C10_counterexample_shared_basename_collides :
    ("/x/app" : String) ≠ "/y/app" ∧
    indexNameOf "/x/app" = indexNameOf "/y/app" ∧
    indexStorePath "/root/.ai-index/data" "/x/app" =
      indexStorePath "/root/.ai-index/data" "/y/app" := by decide

/-- C10 amended: the index key is the sanitized basename of the root, not a
function of the full path; two roots get independent indexes (distinct store
locations under the shared data directory) exactly when their sanitized
basenames differ, and collide whenever the basenames sanitize identically. -/
theorem C10_amended_distinct_basenames_distinct_indexes
    (dataPath r1 r2 : String) (h : indexNameOf r1 ≠ indexNameOf r2) :
    indexStorePath dataPath r1 ≠ indexStorePath dataPath r2 := by
  intro he
  apply h
  have hd : (dataPath ++ "/").data ++ (indexNameOf r1).data =
      (dataPath ++ "/").data ++ (indexNameOf r2).data := by
    have := congrArg String.data he
    simpa [indexStorePath, String.data_append] using this
  exact String.ext (List.append_cancel_left hd)

/-- Witness for the amended C10 at two concrete roots. -/
theorem C10_amended_distinct_basenames_witness :
    indexStorePath "/d" "/x/app" ≠ indexStorePath "/d" "/y/box" :=
  C10_amended_distinct_basenames_distinct_indexes "/d" "/x/app" "/y/box"
    (by decide)

/-- All chunks produced for a file list, in processing order. -/
def allChunks (files : List FsFile) : List Chunk :=
  files.foldr (fun f acc => chunkFile f.path f.content ++ acc) []

/-- First version of `a.js` in the C9 two-run scenario. -/
def c9a1 : String := "const firstversionofthisfilehaslongcontent = 111111; // aaa"

/-- Second version of `a.js` in the C9 two-run scenario. -/
def c9a2 : String := "const secondversionofthisfilehaslongcontent = 222222; // b"

/-- The unchanged file `b.js` in the C9 two-run scenario. -/
def c9b : String := "const anotherfilewithplentyofcontentinsideit = 333333; // c"

/-- First indexing run of the C9 scenario: fresh index over both files. -/
def C9run1 : RunResult :=
  processFiles (fun s => s) (fun _ => false) false [] [] []
    [⟨"a.js", c9a1⟩, ⟨"b.js", c9b⟩]

/-- Second, incremental run of the C9 scenario: only `a.js` changed. -/
def C9run2 : RunResult :=
  processFiles (fun s => s) (fun _ => false) false C9run1.hashStoreDisk
    C9run1.chunkMapDisk C9run1.store [⟨"a.js", c9a2⟩, ⟨"b.js", c9b⟩]

set_option maxRecDepth 40000 in
/-- C9 counterexample: after an incremental run that skipped the unchanged
`b.js`, the store still holds two chunks but the freshly rewritten chunk map
holds only the one chunk of the reprocessed `a.js` — the 1:1 relationship
between stored chunks and chunk-map lines is broken. -/
theorem C9_counterexample_incremental_run_drops_entries :
    C9run2.store.length = 2 ∧ C9run2.chunkMapDisk.length = 1 := by decide

theorem upsertItem_fresh {store : List Chunk} {c : Chunk}
    (h : ∀ d ∈ store, d.id ≠ c.id) : upsertItem store c = store ++ [c] := by
  unfold upsertItem
  rw [if_neg]
  intro hany
  rcases List.any_eq_true.mp hany with ⟨d, hd, hid⟩
  exact h d hd (by simpa using hid)

theorem foldl_upsertItem_fresh : ∀ (cs : List Chunk) (store : List Chunk),
    (∀ c ∈ cs, ∀ d ∈ store, d.id ≠ c.id) → (cs.map Chunk.id).Nodup →
    cs.foldl upsertItem store = store ++ cs := by
  intro cs
  induction cs with
  | nil => intro store _ _; simp
  | cons c t ih =>
    intro store hdisj hnd
    rw [List.map_cons, List.nodup_cons] at hnd
    have hcons := hnd
    have h1 : upsertItem store c = store ++ [c] :=
      upsertItem_fresh (fun d hd => hdisj c (List.mem_cons_self c t) d hd)
    show List.foldl upsertItem (upsertItem store c) t = store ++ c :: t
    rw [h1, ih (store ++ [c]) ?_ hcons.2]
    · simp
    · intro c' hc' d hd
      rcases List.mem_append.mp hd with hds | hdc
      · exact hdisj c' (List.mem_cons_of_mem c hc') d hds
      · have hdc' : d = c := by simpa using hdc
        subst hdc'
        intro he
        exact hcons.1 (he ▸ List.mem_map_of_mem Chunk.id hc')

theorem processOneFile_fresh (pf : String → Bool) (f : FsFile)
    (store : List Chunk) (cmap : List ChunkMapEntry)
    (hpf : pf f.path = false)
    (hdisj : ∀ c ∈ chunkFile f.path f.content, ∀ d ∈ store, d.id ≠ c.id)
    (hnd : ((chunkFile f.path f.content).map Chunk.id).Nodup) :
    processOneFile pf [] (store, cmap) f =
      (store ++ chunkFile f.path f.content,
        cmap ++ (chunkFile f.path f.content).map chunkToEntry) := by
  unfold processOneFile
  simp [alookup, hpf, foldl_upsertItem_fresh _ _ hdisj hnd]

theorem foldl_processOneFile_fresh (pf : String → Bool) :
    ∀ (files : List FsFile) (store : List Chunk) (cmap : List ChunkMapEntry),
    (∀ f ∈ files, pf f.path = false) →
    (∀ c ∈ allChunks files, ∀ d ∈ store, d.id ≠ c.id) →
    ((allChunks files).map Chunk.id).Nodup →
    files.foldl (processOneFile pf []) (store, cmap) =
      (store ++ allChunks files, cmap ++ (allChunks files).map chunkToEntry) := by
  intro files
  induction files with
  | nil => intro store cmap _ _ _; simp [allChunks]
  | cons f t ih =>
    intro store cmap hpf hdisj hnd
    have hall : allChunks (f :: t) = chunkFile f.path f.content ++ allChunks t := rfl
    rw [hall] at hdisj hnd
    rw [List.map_append, List.nodup_append] at hnd
    have hstep := processOneFile_fresh pf f store cmap (hpf f (List.mem_cons_self f t))
      (fun c hc d hd => hdisj c (List.mem_append_left _ hc) d hd) hnd.1
    show List.foldl (processOneFile pf []) (processOneFile pf [] (store, cmap) f) t =
      (store ++ allChunks (f :: t), cmap ++ (allChunks (f :: t)).map chunkToEntry)
    rw [hstep, ih _ _ (fun g hg => hpf g (List.mem_cons_of_mem f hg)) ?_
      hnd.2.1]
    · rw [hall]
      simp [List.append_assoc]
    · intro c hc d hd
      rcases List.mem_append.mp hd with hds | hdc
      · exact hdisj c (List.mem_append_right _ hc) d hds
      · intro he
        exact hnd.2.2 (List.mem_map_of_mem Chunk.id hdc)
          (he ▸ List.mem_map_of_mem Chunk.id hc)

theorem chunkLoop_id_facts (fp : String) (lines : List (List Char))
    (lang area : String) (m : Nat) (hm : 5 < m) :
    ∀ (fuel i : Nat),
      (∀ c ∈ chunkLoop fp lines lang area m i fuel, c.id.1 = fp ∧ i ≤ c.id.2) ∧
      ((chunkLoop fp lines lang area m i fuel).map Chunk.id).Nodup := by
  intro fuel
  induction fuel with
  | zero => intro i; exact ⟨by simp [chunkLoop], by simp [chunkLoop]⟩
  | succ n ih =>
    intro i
    by_cases hi : i < lines.length
    · have hrec := ih (i + (m - 5))
      constructor
      · intro c hc
        simp only [chunkLoop, if_pos hi] at hc
        split at hc
        · rcases List.mem_cons.mp hc with hceq | hcr
          · subst hceq
            exact ⟨rfl, Nat.le_refl i⟩
          · have := hrec.1 c hcr
            exact ⟨this.1, by omega⟩
        · have := hrec.1 c hc
          exact ⟨this.1, by omega⟩
      · simp only [chunkLoop, if_pos hi]
        split
        · rw [List.map_cons, List.nodup_cons]
          refine ⟨?_, hrec.2⟩
          intro hmem
          rcases List.mem_map.mp hmem with ⟨c, hc, hce⟩
          have := (hrec.1 c hc).2
          have h2 : c.id.2 = i := congrArg Prod.snd hce
          omega
        · exact hrec.2
    · simp [chunkLoop, hi]

theorem chunkFile_id_facts (fp content : String) :
    (∀ c ∈ chunkFile fp content, c.id.1 = fp) ∧
    ((chunkFile fp content).map Chunk.id).Nodup := by
  have hm : 5 < maxLinesPerChunk (getLanguage fp) (getFileArea fp) := by
    unfold maxLinesPerChunk
    split <;> omega
  have h := chunkLoop_id_facts fp (splitOnChar '\n' content.data)
    (getLanguage fp) (getFileArea fp) _ hm
    ((splitOnChar '\n' content.data).length + 1) 0
  exact ⟨fun c hc => (h.1 c hc).1, h.2⟩

theorem mem_allChunks {c : Chunk} : ∀ {files : List FsFile},
    c ∈ allChunks files → ∃ f ∈ files, c ∈ chunkFile f.path f.content := by
  intro files
  induction files with
  | nil => intro h; cases h
  | cons f t ih =>
    intro h
    have h' : c ∈ chunkFile f.path f.content ++ allChunks t := h
    rcases List.mem_append.mp h' with h1 | h2
    · exact ⟨f, List.mem_cons_self f t, h1⟩
    · rcases ih h2 with ⟨g, hg, hcg⟩
      exact ⟨g, List.mem_cons_of_mem f hg, hcg⟩

theorem allChunks_ids_nodup : ∀ (files : List FsFile),
    (files.map FsFile.path).Nodup → ((allChunks files).map Chunk.id).Nodup := by
  intro files
  induction files with
  | nil => simp [allChunks]
  | cons f t ih =>
    intro hnd
    rw [List.map_cons, List.nodup_cons] at hnd
    rcases hnd with ⟨hf, ht⟩
    show ((chunkFile f.path f.content ++ allChunks t).map Chunk.id).Nodup
    rw [List.map_append, List.nodup_append]
    refine ⟨(chunkFile_id_facts f.path f.content).2, ih ht, ?_⟩
    intro x hx hx2
    rcases List.mem_map.mp hx with ⟨c, hc, hce⟩
    rcases List.mem_map.mp hx2 with ⟨c', hc', hce'⟩
    rcases mem_allChunks hc' with ⟨g, hg, hcg⟩
    have h1 : c.id.1 = f.path := (chunkFile_id_facts f.path f.content).1 c hc
    have h2 : c'.id.1 = g.path := (chunkFile_id_facts g.path g.content).1 c' hcg
    apply hf
    have hgf : g.path = f.path := by
      rw [← h2, ← h1, hce, hce']
    exact hgf ▸ List.mem_map_of_mem FsFile.path hg

/-- C9 amended: the 1:1 relationship between stored chunks and chunk-map lines
holds after a run that starts from an empty index and empty hash store and
processes every file without failures (assuming chunk ids do not collide,
which the pair abstraction of md5 renders automatic for distinct paths): the
store equals the produced chunk list and the chunk map lists exactly those
chunks' entries, id for id. After an incremental run the rewritten chunk map
instead covers only the files processed in that run (see the counterexample),
so the 1:1 invariant fails for unchanged files' chunks. -/
theorem C9_amended_full_run_chunkmap_bijective
    (hashFn : String → String) (force : Bool) (files : List FsFile)
    (hnd : (files.map FsFile.path).Nodup) :
    (processFiles hashFn (fun _ => false) force [] [] [] files).store =
      allChunks files ∧
    (processFiles hashFn (fun _ => false) force [] [] [] files).chunkMapDisk =
      (allChunks files).map chunkToEntry ∧
    (processFiles hashFn (fun _ => false) force [] [] [] files).store.map
        Chunk.id =
      (processFiles hashFn (fun _ => false) force [] [] [] files).chunkMapDisk.map
        ChunkMapEntry.chunk_id := by
  have htp : filesToProcess hashFn force [] files = files := by
    unfold filesToProcess
    refine List.filter_eq_self.mpr ?_
    intro f _
    simp [alookup]
  by_cases hcond : (filesToProcess hashFn force [] files).length = 0 ∧
      force = false
  · have hfe : files = [] := by
      rw [htp] at hcond
      exact List.length_eq_zero.mp hcond.1
    subst hfe
    rcases hcond with ⟨hlen, hforce⟩
    subst hforce
    exact ⟨rfl, rfl, rfl⟩
  · simp only [processFiles]
    rw [if_neg hcond, htp]
    rw [foldl_processOneFile_fresh (fun _ => false) files [] []
      (fun _ _ => rfl) (fun c _ d hd => absurd hd (List.not_mem_nil d))
      (allChunks_ids_nodup files hnd)]
    simp only [List.map_nil, List.filter_nil, List.foldl_nil, List.nil_append,
      true_and]
    rw [List.map_map]
    rfl

/-- Witness for the amended C9 at the concrete first run of the C9 scenario. -/
theorem C9_amended_full_run_witness :
    C9run1.store = allChunks [⟨"a.js", c9a1⟩, ⟨"b.js", c9b⟩] ∧
    C9run1.chunkMapDisk =
      (allChunks [⟨"a.js", c9a1⟩, ⟨"b.js", c9b⟩]).map chunkToEntry ∧
    C9run1.store.map Chunk.id = C9run1.chunkMapDisk.map ChunkMapEntry.chunk_id :=
  C9_amended_full_run_chunkmap_bijective (fun s => s) false
    [⟨"a.js", c9a1⟩, ⟨"b.js", c9b⟩] (by decide)

/-! Query-side models: the local vector store search, the hybrid merge, the
local result grouping, and the OpenSearch-path `expandToParent`. -/

/-- Metadata stored with a vector-store item by `addDocuments`. `parent_id`
models the field `searchLocal` reads back through the JavaScript `||`
fallback, with the empty string standing for `undefined` (the indexer in fact
never stores it, so it is always empty in practice). -/
structure Meta where
  content : String
  repo_path : String
  area : String
  language : String
  parent_id : String
  deriving DecidableEq

/-- A record held by the vectra index: id plus metadata (the stored vector is
opaque to every claim). -/
structure VItem where
  id : ChunkId
  meta : Meta
  deriving DecidableEq

/-- One ranked nearest-neighbour result of `index.queryItems`. -/
structure VScored where
  item : VItem
  score : Rat
  deriving DecidableEq

/-- Output shape of `LocalVectorStore.search` (`{id, score, metadata,
content}`; `content` duplicates `metadata.content`). -/
structure SRes where
  id : ChunkId
  score : Rat
  meta : Meta
  deriving DecidableEq

/-- Model of `LocalVectorStore.search`: the ranked `queryItems` output `raw`
is filtered by the exact-match `area` and `language` filters and by the score
threshold (only when the threshold is positive), then projected. -/
def searchStore (raw : List VScored) (areaF langF : Option String)
    (scoreThreshold : Rat) : List SRes :=
  let f1 : List VScored := match areaF with
    | some a => raw.filter (fun r => r.item.meta.area = a)
    | none => raw
  let f2 : List VScored := match langF with
    | some lg => f1.filter (fun r => r.item.meta.language = lg)
    | none => f1
  let f3 : List VScored :=
    if scoreThreshold > 0 then f2.filter (fun r => r.score ≥ scoreThreshold)
    else f2
  f3.map (fun (r : VScored) => { id := r.item.id, score := r.score, meta := r.item.meta })

/-- Number of non-overlapping left-to-right occurrences of `pat` in `l`:
model of `(content.match(new RegExp(query, 'gi')) || []).length` for a
plain-text query over already lower-cased text. `fuel` bounds the scan
(callers pass the text length plus one, which always suffices). -/
def countOccs : Nat → List Char → List Char → Nat
  | 0, _, _ => 0
  | fuel + 1, l, pat =>
    if pat ≠ [] ∧ pat.isPrefixOf l then 1 + countOccs fuel (l.drop pat.length) pat
    else
      match l with
      | [] => 0
      | _ :: t => countOccs fuel t pat

/-- Model of `query.split(/\s+/)`: split on maximal whitespace runs, keeping
the leading empty piece JavaScript produces when the string starts with
whitespace. `fuel` bounds the scan (callers pass the length plus one). -/
def splitWsRuns : Nat → List Char → List (List Char)
  | 0, _ => []
  | _ + 1, [] => []
  | fuel + 1, l =>
    (l.takeWhile (fun c => !(isWsp c))) ::
      splitWsRuns fuel ((l.dropWhile (fun c => !(isWsp c))).dropWhile isWsp)

/-- Model of `calculateTextScore(content, query)`: both arguments arrive
already lower-cased; exact occurrences count double, plus one for every query
word contained in the content, normalized by the word count plus one. -/
def calculateTextScore (content query : List Char) : Rat :=
  let exactMatches := countOccs (content.length + 1) content query
  let words := splitWsRuns (query.length + 1) query
  let wordMatches := (words.filter (fun w => containsList content (lowerList w))).length
  ((exactMatches : Rat) * 2 + (wordMatches : Rat)) / ((words.length : Rat) + 1)

/-- An entry of the `combined` map in `hybridSearch`: the spread search result
plus its accumulated `finalScore`. -/
structure CRes where
  id : ChunkId
  score : Rat
  meta : Meta
  finalScore : Rat
  deriving DecidableEq

/-- Lexical bucket of `hybridSearch`: every stored item whose lower-cased
content contains the lower-cased query, scored by `calculateTextScore`. No
area or language filter is applied on this bucket. -/
def textCandidates (allItems : List VItem) (query : String) : List SRes :=
  allItems.filterMap (fun it =>
    if containsList (lowerList it.meta.content.data) (lowerList query.data) then
      some ⟨it.id,
        calculateTextScore (lowerList it.meta.content.data) (lowerList query.data),
        it.meta⟩
    else none)

/-- Merge step of `hybridSearch`: seed the insertion-ordered map with the
weighted vector bucket, then fold the (sorted, truncated) lexical bucket in,
adding the weighted lexical score onto an entry already present and appending
a fresh entry otherwise. -/
def combineBuckets (vecRes textRes : List SRes) (vectorWeight textWeight : Rat) :
    List CRes :=
  let base := vecRes.map (fun r =>
    { id := r.id, score := r.score, meta := r.meta,
      finalScore := r.score * vectorWeight })
  textRes.foldl (fun acc t =>
    if acc.any (fun c => c.id = t.id) then
      acc.map (fun c =>
        if c.id = t.id then
          { c with finalScore := c.finalScore + t.score * textWeight }
        else c)
    else acc ++ [⟨t.id, t.score, t.meta, t.score * textWeight⟩]) base

/-- Model of `LocalVectorStore.hybridSearch`: vector bucket (the filtered
`queryItems` output for `k * 2` neighbours, passed in as `vecRaw`), lexical
bucket over a full scan of the store, weighted merge, sort by `finalScore`,
truncate to `k`. A `scoreThreshold` option does not appear here because
`hybridSearch` never destructures one: the option `searchLocal` passes is
dropped on the floor by the source. -/
def hybridSearch (query : String) (vecRaw : List VScored)
    (allItems : List VItem) (k : Nat) (textWeight vectorWeight : Rat)
    (areaF : Option String) : List CRes :=
  let vectorResults := searchStore vecRaw areaF none 0
  let textResults := sortDesc SRes.score (textCandidates allItems query)
  let combined := combineBuckets vectorResults (textResults.take (k * 2))
    vectorWeight textWeight
  (sortDesc CRes.finalScore combined).take k

/-- The `_source` part of a local search hit as built by `searchLocal`. -/
structure LSource where
  repo_path : String
  content : String
  area : String
  parent_id : String
  language : String
  deriving DecidableEq

/-- A local search hit (`{_source, _score}`). -/
structure LHit where
  source : LSource
  score : Rat
  deriving DecidableEq

/-- Model of `searchLocal` in the local query tool: run `hybridSearch` with
the default weights (`textWeight 0.3`, `vectorWeight 0.7`) and map each
result to the OpenSearch-like hit shape. `minScore` is forwarded only as the
`scoreThreshold` option that `hybridSearch` ignores, so it cannot influence
the result (the subject of C6). The JavaScript falsy fallbacks
`metadata.parent_id || metadata.repo_path` and `finalScore || score` are
modelled on the empty string and on a zero score. -/
def searchLocal (query : String) (vecRaw : List VScored)
    (allItems : List VItem) (k : Nat) (areaF : Option String)
    (minScore : Option Rat) : List LHit :=
  (hybridSearch query vecRaw allItems k (3/10) (7/10) areaF).map (fun r =>
    ⟨⟨r.meta.repo_path, r.meta.content, r.meta.area,
      (if r.meta.parent_id = "" then r.meta.repo_path else r.meta.parent_id),
      r.meta.language⟩,
     (if r.finalScore = 0 then r.score else r.finalScore)⟩)

/-- A file group built by `groupResultsByFile`. -/
structure FileGroup where
  path : String
  language : String
  area : String
  bestScore : Rat
  chunks : List (String × Rat)
  deriving DecidableEq

/-- Grouping key of a local hit
(`hit._source.parent_id || hit._source.repo_path`). -/
def lhitKey (h : LHit) : String :=
  if h.source.parent_id = "" then h.source.repo_path else h.source.parent_id

/-- One step of `groupResultsByFile`'s loop: create the group on first sight
(recording `bestScore` from this first hit — never updated afterwards), and
append the chunk while fewer than `maxPerFile` are kept. JavaScript `Map`
keys are unique, so an update touches exactly the first matching group. -/
def addLHit (maxPerFile : Nat) : List FileGroup → LHit → List FileGroup
  | [], h =>
    [{ path := lhitKey h, language := h.source.language, area := h.source.area,
       bestScore := h.score,
       chunks := if 0 < maxPerFile then [(h.source.content, h.score)] else [] }]
  | g :: gs, h =>
    if g.path = lhitKey h then
      (if g.chunks.length < maxPerFile then
        { g with chunks := g.chunks ++ [(h.source.content, h.score)] }
      else g) :: gs
    else g :: addLHit maxPerFile gs h

/-- Model of `groupResultsByFile` (default `maxPerFile = 3`): group the hits
by file, then sort the groups descending by `bestScore`. -/
def groupResultsByFile (hits : List LHit) : List FileGroup :=
  sortDesc FileGroup.bestScore (hits.foldl (addLHit 3) [])

/-- Model of the local query tool's main flow: hybrid search for `k * 2`
hits, group by file, keep the top `k` file groups. -/
def queryLocalFiles (query : String) (vecRaw : List VScored)
    (allItems : List VItem) (k : Nat) (areaF : Option String)
    (minScore : Option Rat) : List FileGroup :=
  (groupResultsByFile (searchLocal query vecRaw allItems (k * 2) areaF minScore)).take k

/-- The `_source` part of an OpenSearch hit. -/
structure RSource where
  repo_path : String
  content : String
  area : String
  parent_id : String
  language : String
  deriving DecidableEq

/-- An OpenSearch hit (`_id`, `_source`, `_score`). -/
structure RHit where
  id : ChunkId
  source : RSource
  score : Rat
  deriving DecidableEq

/-- Grouping key of a remote hit (`source.parent_id || source.repo_path`). -/
def rhitKey (h : RHit) : String :=
  if h.source.parent_id = "" then h.source.repo_path else h.source.parent_id

/-- Model of the chunk-info lookup in `expandToParent`: first map entry with
the hit's file path, else first entry with the hit's id, else first entry
whose `file` is a path suffix of the hit's `repo_path`. -/
def findChunkInfo (chunkMap : List ChunkMapEntry) (repoPath : String)
    (hitId : ChunkId) : Option ChunkMapEntry :=
  (chunkMap.find? (fun c => c.file = repoPath)).orElse (fun _ =>
    (chunkMap.find? (fun c => c.chunk_id = hitId)).orElse (fun _ =>
      chunkMap.find? (fun c => sEndsWith repoPath c.file)))

/-- The snippet line range recovered from the chunk map:
`chunkInfo?.start || chunkInfo?.start_line || 1` (likewise for `end`).
Entries written by the indexer carry `start`/`end` and never `start_line` /
`end_line`, so a recorded 0 — the `start` of every first window — is falsy in
JavaScript and falls through to 1. -/
def recoverRange (chunkMap : List ChunkMapEntry) (repoPath : String)
    (hitId : ChunkId) : Nat × Nat :=
  match findChunkInfo chunkMap repoPath hitId with
  | none => (1, 1)
  | some c =>
    ((if c.start = 0 then 1 else c.start), (if c.endL = 0 then 1 else c.endL))

/-- A snippet pushed by `expandToParent`. -/
structure Snip where
  content : String
  start : Nat
  endL : Nat
  score : Rat
  deriving DecidableEq

/-- A file group built by `expandToParent`. -/
structure RGroup where
  path : String
  language : String
  area : String
  score : Rat
  snippets : List Snip
  deriving DecidableEq

/-- Final per-file projection of `expandToParent` (`{path, area, score,
snippets}` with the top-3 snippet `(start, end, score)` triples). -/
structure RFile where
  path : String
  area : String
  score : Rat
  snippets : List (Nat × Nat × Rat)
  deriving DecidableEq

/-- One step of `expandToParent`'s loop: create the group on first sight,
push the snippet, and raise the group score with `Math.max`. JavaScript
object keys are unique, so an update touches exactly the first matching
group. -/
def addRHit (chunkMap : List ChunkMapEntry) : List RGroup → RHit → List RGroup
  | [], h =>
    [⟨rhitKey h, h.source.language, h.source.area, max h.score h.score,
      [⟨h.source.content, (recoverRange chunkMap h.source.repo_path h.id).1,
        (recoverRange chunkMap h.source.repo_path h.id).2, h.score⟩]⟩]
  | g :: gs, h =>
    if g.path = rhitKey h then
      { g with
        snippets := g.snippets ++
          [⟨h.source.content, (recoverRange chunkMap h.source.repo_path h.id).1,
            (recoverRange chunkMap h.source.repo_path h.id).2, h.score⟩],
        score := max g.score h.score } :: gs
    else g :: addRHit chunkMap gs h

/-- Model of `expandToParent`: group hits by parent file, sort the groups
descending by score, project each to path/area/score with its top-3 snippet
ranges, and finally apply the file-level `minScore` filter, which keeps the
files whose score is at least the threshold. -/
def expandToParent (hits : List RHit) (chunkMap : List ChunkMapEntry)
    (minScore : Option Rat) : List RFile :=
  let groups := hits.foldl (addRHit chunkMap) []
  let results : List RFile := (sortDesc RGroup.score groups).map (fun g =>
    ⟨g.path, g.area, g.score,
      ((sortDesc Snip.score g.snippets).take 3).map (fun s => (s.start, s.endL, s.score))⟩)
  match minScore with
  | none => results
  | some x => results.filter (fun r => r.score ≥ x)

/-! Membership lemmas for the stable sort. -/

theorem mem_insertDesc {f : α → Rat} {x y : α} : ∀ {l : List α},
    (y ∈ insertDesc f x l ↔ y = x ∨ y ∈ l) := by
  intro l
  induction l with
  | nil => simp [insertDesc]
  | cons z t ih =>
    simp only [insertDesc]
    split
    · simp [List.mem_cons]
    · simp only [List.mem_cons, ih]
      tauto

theorem mem_sortDesc {f : α → Rat} {y : α} : ∀ {l : List α},
    (y ∈ sortDesc f l ↔ y ∈ l) := by
  intro l
  induction l with
  | nil => simp [sortDesc]
  | cons x t ih => simp only [sortDesc, mem_insertDesc, ih, List.mem_cons]

set_option maxRecDepth 40000 in
/-- C4 counterexample: the chunk map produced for the 29-line two-chunk file
records `(25, 29)` for the second chunk, but the query-time recovery for that
chunk's hit returns `(1, 29)`: the path-first lookup picks the file's first
entry, and JavaScript's `start || start_line || 1` turns its recorded start 0
into 1. -/
theorem C4_counterexample_roundtrip_breaks :
    ((chunkFile "a.js" twoWindowContent).map chunkToEntry).length = 2 ∧
    (((chunkFile "a.js" twoWindowContent).map chunkToEntry).find?
        (fun c => c.chunk_id = ("a.js", 25))).map (fun c => (c.start, c.endL)) =
      some (25, 29) ∧
    recoverRange ((chunkFile "a.js" twoWindowContent).map chunkToEntry) "a.js"
      ("a.js", 25) = (1, 29) := by decide

/-- C4 amended: the recovered range equals the recorded range only for a
chunk whose entry is the first chunk-map entry carrying its file path and
whose recorded start and end are both nonzero; any other chunk of the same
file recovers the first entry's range instead, and a recorded 0 (the start of
every first window) is replaced by 1. -/
theorem C4_amended_roundtrip_for_first_entry
    (chunkMap : List ChunkMapEntry) (e : ChunkMapEntry) (hitId : ChunkId)
    (hfind : chunkMap.find? (fun c => c.file = e.file) = some e)
    (hs : e.start ≠ 0) (he : e.endL ≠ 0) :
    recoverRange chunkMap e.file hitId = (e.start, e.endL) := by
  unfold recoverRange findChunkInfo
  rw [hfind]
  simp [Option.orElse, hs, he]

/-- Witness for the amended C4 at a concrete one-entry chunk map. -/
theorem C4_amended_roundtrip_witness :
    recoverRange [⟨("b.js", 25), "b.js", 25, 40, "b.js", "other"⟩] "b.js"
      ("b.js", 25) = (25, 40) :=
  C4_amended_roundtrip_for_first_entry
    [⟨("b.js", 25), "b.js", 25, 40, "b.js", "other"⟩]
    ⟨("b.js", 25), "b.js", 25, 40, "b.js", "other"⟩ ("b.js", 25)
    (by decide) (by decide) (by decide)

/-- C5 counterexample: with the area filter `backend`, a `frontend` chunk
that merely contains the query text enters the merged result set through the
lexical bucket, which `hybridSearch` never area-filters. -/
theorem C5_counterexample_lexical_bucket_ignores_area :
    (hybridSearch "login" []
      [⟨("f.jsx", 0), ⟨"frontend login form component", "f.jsx", "frontend",
        "javascript", ""⟩⟩] 10 (3/10) (7/10) (some "backend")).map
      (fun r => r.meta.area) = ["frontend"] := by decide

theorem searchStore_area {raw : List VScored} {a : String}
    {langF : Option String} {th : Rat} {r : SRes}
    (h : r ∈ searchStore raw (some a) langF th) : r.meta.area = a := by
  simp only [searchStore] at h
  rcases List.mem_map.mp h with ⟨x, hx, rfl⟩
  have hx2 : x ∈ (match langF with
      | some lg => (raw.filter (fun (s : VScored) => s.item.meta.area = a)).filter
          (fun (s : VScored) => s.item.meta.language = lg)
      | none => raw.filter (fun (s : VScored) => s.item.meta.area = a)) := by
    split at hx
    · exact (List.mem_filter.mp hx).1
    · exact hx
  have hx1 : x ∈ raw.filter (fun (s : VScored) => s.item.meta.area = a) := by
    cases langF with
    | none => exact hx2
    | some lg => exact (List.mem_filter.mp hx2).1
  have := (List.mem_filter.mp hx1).2
  simpa using this

theorem textCandidates_contains {allItems : List VItem} {q : String} {r : SRes}
    (h : r ∈ textCandidates allItems q) :
    containsList (lowerList r.meta.content.data) (lowerList q.data) = true := by
  unfold textCandidates at h
  rcases List.mem_filterMap.mp h with ⟨it, hit, heq⟩
  by_cases hc : containsList (lowerList it.meta.content.data) (lowerList q.data)
  · rw [if_pos hc] at heq
    injection heq with heq2
    subst heq2
    exact hc
  · rw [if_neg hc] at heq
    cases heq

theorem combineFold_meta (tw : Rat) :
    ∀ (ts : List SRes) (acc : List CRes) (c : CRes),
    c ∈ ts.foldl (fun acc t =>
      if acc.any (fun c => c.id = t.id) then
        acc.map (fun c =>
          if c.id = t.id then
            { c with finalScore := c.finalScore + t.score * tw }
          else c)
      else acc ++ [⟨t.id, t.score, t.meta, t.score * tw⟩]) acc →
    (∃ d ∈ acc, c.meta = d.meta) ∨ (∃ t ∈ ts, c.meta = t.meta) := by
  intro ts
  induction ts with
  | nil => intro acc c h; left; exact ⟨c, h, rfl⟩
  | cons t ts ih =>
    intro acc c h
    rcases ih _ c h with h1 | h2
    · rcases h1 with ⟨d, hd, he⟩
      simp only [] at hd
      by_cases hany : acc.any (fun c => c.id = t.id) = true
      · rw [if_pos hany] at hd
        rcases List.mem_map.mp hd with ⟨d0, hd0, rfl⟩
        left
        refine ⟨d0, hd0, ?_⟩
        rw [he]
        split <;> rfl
      · rw [if_neg hany] at hd
        rcases List.mem_append.mp hd with hda | hdt
        · left; exact ⟨d, hda, he⟩
        · right
          have hde : d = ⟨t.id, t.score, t.meta, t.score * tw⟩ := by simpa using hdt
          subst hde
          exact ⟨t, List.mem_cons_self t ts, he⟩
    · rcases h2 with ⟨t', ht', he⟩
      exact Or.inr ⟨t', List.mem_cons_of_mem t ht', he⟩

theorem combineBuckets_meta {vecRes textRes : List SRes} {vw tw : Rat} {c : CRes}
    (h : c ∈ combineBuckets vecRes textRes vw tw) :
    (∃ r ∈ vecRes, c.meta = r.meta) ∨ (∃ r ∈ textRes, c.meta = r.meta) := by
  unfold combineBuckets at h
  rcases combineFold_meta tw textRes _ c h with h1 | h2
  · rcases h1 with ⟨d, hd, he⟩
    rcases List.mem_map.mp hd with ⟨r, hr, rfl⟩
    exact Or.inl ⟨r, hr, he⟩
  · exact Or.inr h2

/-- C5 amended: with an area filter, every chunk of the merged result set
either carries exactly the filtered area (it came through the area-filtered
vector bucket) or its lower-cased content contains the lower-cased query (it
came through the lexical bucket, which the source never area-filters); the
counterexample shows the second disjunct is real, so the filter does not
consistently exclude non-matching chunks. -/
theorem C5_amended_area_filter_vector_bucket_only
    (query : String) (vecRaw : List VScored) (allItems : List VItem)
    (k : Nat) (tw vw : Rat) (a : String) :
    (hybridSearch query vecRaw allItems k tw vw (some a)).all
      (fun r => (r.meta.area == a) ||
        containsList (lowerList r.meta.content.data) (lowerList query.data)) = true := by
  rw [List.all_eq_true]
  intro r hr
  simp only [hybridSearch] at hr
  have hr1 : r ∈ combineBuckets (searchStore vecRaw (some a) none 0)
      ((sortDesc SRes.score (textCandidates allItems query)).take (k * 2)) vw tw :=
    mem_sortDesc.mp (List.take_subset k _ hr)
  rcases combineBuckets_meta hr1 with ⟨d, hd, he⟩ | ⟨t, ht, he⟩
  · have ha := searchStore_area hd
    rw [he, ha]
    simp
  · have ht2 : t ∈ textCandidates allItems query :=
      mem_sortDesc.mp (List.take_subset _ _ ht)
    have hc := textCandidates_contains ht2
    rw [he, hc]
    simp

/-- Store metadata of the chunk used in the C6 counterexample. -/
def C6meta : Meta :=
  ⟨"chunk text without that letter", "f.js", "backend", "javascript", ""⟩

/-- Store item of the C6 counterexample. -/
def C6item : VItem := ⟨("f.js", 0), C6meta⟩

/-- C6 counterexample: the local query path returns a result file whose top
score (7/10) lies far below the requested threshold 100: `searchLocal` only
forwards `minScore` as the `scoreThreshold` option, which `hybridSearch`
never reads, so no score filtering happens at all on the local path. -/
theorem C6_counterexample_local_minScore_ignored :
    (queryLocalFiles "zzz" [⟨C6item, 1⟩] [C6item] 10 none (some 100)).length = 1 ∧
    ∀ g ∈ queryLocalFiles "zzz" [⟨C6item, 1⟩] [C6item] 10 none (some 100),
      g.bestScore < 100 := by
  have hne : (1 : Rat) * (7/10) ≠ 0 := by norm_num
  have h0 : ¬((0 : Rat) > 0) := by norm_num
  have hcontains : containsList (lowerList C6meta.content.data)
      (lowerList ("zzz" : String).data) = false := by decide
  have hq : queryLocalFiles "zzz" [⟨C6item, 1⟩] [C6item] 10 none (some 100) =
      [⟨"f.js", "javascript", "backend", 1 * (7/10),
        [("chunk text without that letter", 1 * (7/10))]⟩] := by
    simp [queryLocalFiles, groupResultsByFile, searchLocal, hybridSearch,
      searchStore, textCandidates, combineBuckets, sortDesc, insertDesc,
      addLHit, lhitKey, C6item, C6meta, hne, h0, hcontains]
  rw [hq]
  constructor
  · rfl
  · intro g hg
    have hge : g = ⟨"f.js", "javascript", "backend", 1 * (7/10),
        [("chunk text without that letter", 1 * (7/10))]⟩ := by simpa using hg
    rw [hge]
    norm_num

/-- C6 amended: on the remote query path, `expandToParent` with a threshold
returns exactly the files of the unfiltered run whose score is at least the
threshold (so a file scoring exactly the threshold is kept); on the local
query path, the returned files are independent of `minScore` altogether — the
threshold is silently ignored. -/
theorem C6_amended_remote_threshold_exact_local_ignored :
    (∀ (hits : List RHit) (chunkMap : List ChunkMapEntry) (x : Rat) (r : RFile),
      r ∈ expandToParent hits chunkMap (some x) ↔
        (r ∈ expandToParent hits chunkMap none ∧ x ≤ r.score)) ∧
    (∀ (query : String) (vecRaw : List VScored) (allItems : List VItem)
        (k : Nat) (areaF : Option String) (m1 m2 : Option Rat),
      queryLocalFiles query vecRaw allItems k areaF m1 =
        queryLocalFiles query vecRaw allItems k areaF m2) := by
  constructor
  · intro hits chunkMap x r
    show r ∈ (expandToParent hits chunkMap none).filter
        (fun r => r.score ≥ x) ↔ _
    rw [List.mem_filter]
    simp [ge_iff_le]
  · intro query vecRaw allItems k areaF m1 m2
    rfl

/-! Machinery for C8: the group score as a running maximum (remote path) or a
first-seen score (local path). -/

/-- Score of the remote group keyed `p`, when one exists. -/
def rgScore? (groups : List RGroup) (p : String) : Option Rat :=
  (groups.find? (fun g => g.path = p)).map RGroup.score

/-- Running maximum mirroring `score = Math.max(score, hit._score)`. -/
def maxRun : Option Rat → List Rat → Option Rat
  | o, [] => o
  | o, x :: t => maxRun (some (match o with | none => x | some s => max s x)) t

theorem maxRun_ge_init : ∀ (l : List Rat) (s m : Rat),
    maxRun (some s) l = some m → s ≤ m := by
  intro l
  induction l with
  | nil =>
    intro s m hm
    cases hm
    exact le_refl _
  | cons x t ih =>
    intro s m hm
    exact le_trans (le_max_left s x) (ih (max s x) m hm)

theorem maxRun_mem : ∀ (l : List Rat) (o : Option Rat) (m : Rat),
    maxRun o l = some m → m ∈ l ∨ o = some m := by
  intro l
  induction l with
  | nil =>
    intro o m hm
    exact Or.inr hm
  | cons x t ih =>
    intro o m hm
    cases o with
    | none =>
      rcases ih (some x) m hm with hmem | heq
      · exact Or.inl (List.mem_cons_of_mem x hmem)
      · have hxm : x = m := by injection heq
        exact Or.inl (hxm ▸ List.mem_cons_self x t)
    | some s =>
      rcases ih (some (max s x)) m hm with hmem | heq
      · exact Or.inl (List.mem_cons_of_mem x hmem)
      · have hmx : max s x = m := by injection heq
        rcases max_choice s x with hc | hc
        · exact Or.inr (by rw [← hmx, hc])
        · refine Or.inl ?_
          rw [← hmx, hc]
          exact List.mem_cons_self x t

theorem maxRun_ge : ∀ (l : List Rat) (o : Option Rat) (m x : Rat),
    maxRun o l = some m → x ∈ l → x ≤ m := by
  intro l
  induction l with
  | nil =>
    intro o m x _ hx
    cases hx
  | cons y t ih =>
    intro o m x hm hx
    rcases List.mem_cons.mp hx with rfl | hxt
    · cases o with
      | none => exact maxRun_ge_init t x m hm
      | some s => exact le_trans (le_max_right s x) (maxRun_ge_init t (max s x) m hm)
    · cases o with
      | none => exact ih (some y) m x hm hxt
      | some s => exact ih (some (max s y)) m x hm hxt

theorem rgScore?_addRHit (cmap : List ChunkMapEntry) (h : RHit) :
    ∀ (groups : List RGroup) (p : String),
    rgScore? (addRHit cmap groups h) p =
      if rhitKey h = p then
        some (match rgScore? groups p with
          | none => h.score
          | some s => max s h.score)
      else rgScore? groups p := by
  intro groups
  induction groups with
  | nil =>
    intro p
    by_cases hp : rhitKey h = p
    · rw [if_pos hp]
      unfold rgScore? addRHit
      rw [List.find?_cons_of_pos _ (by simpa using hp)]
      show some (max h.score h.score) = _
      rw [max_self]
      rfl
    · rw [if_neg hp]
      unfold rgScore? addRHit
      rw [List.find?_cons_of_neg _ (by simpa using hp)]
  | cons g gs ih =>
    intro p
    by_cases hg : g.path = rhitKey h
    · by_cases hgp : g.path = p
      · have hp : rhitKey h = p := by rw [← hg, hgp]
        rw [if_pos hp]
        unfold rgScore?
        simp only [addRHit]
        rw [if_pos hg]
        rw [List.find?_cons_of_pos _ (by simpa using hgp)]
        rw [List.find?_cons_of_pos _ (by simpa using hgp)]
        rfl
      · have hp : ¬(rhitKey h = p) := by rw [← hg]; exact hgp
        rw [if_neg hp]
        unfold rgScore?
        simp only [addRHit]
        rw [if_pos hg]
        rw [List.find?_cons_of_neg _ (by simpa using hgp)]
        rw [List.find?_cons_of_neg _ (by simpa using hgp)]
    · by_cases hgp : g.path = p
      · have hp : ¬(rhitKey h = p) := by
          intro he
          exact hg (by rw [he, hgp])
        rw [if_neg hp]
        unfold rgScore?
        simp only [addRHit]
        rw [if_neg hg]
        rw [List.find?_cons_of_pos _ (by simpa using hgp)]
        rw [List.find?_cons_of_pos _ (by simpa using hgp)]
      · unfold rgScore?
        simp only [addRHit]
        rw [if_neg hg]
        rw [List.find?_cons_of_neg _ (by simpa using hgp)]
        rw [List.find?_cons_of_neg _ (by simpa using hgp)]
        exact ih p

theorem rgScore?_foldl (cmap : List ChunkMapEntry) :
    ∀ (hits : List RHit) (groups : List RGroup) (p : String),
    rgScore? (hits.foldl (addRHit cmap) groups) p =
      maxRun (rgScore? groups p)
        ((hits.filter (fun h => rhitKey h = p)).map RHit.score) := by
  intro hits
  induction hits with
  | nil => intro groups p; rfl
  | cons h t ih =>
    intro groups p
    show rgScore? (t.foldl (addRHit cmap) (addRHit cmap groups h)) p = _
    rw [ih (addRHit cmap groups h) p, rgScore?_addRHit cmap h groups p]
    by_cases hp : rhitKey h = p
    · rw [if_pos hp, List.filter_cons_of_pos (by simpa using hp), List.map_cons]
      rfl
    · rw [if_neg hp, List.filter_cons_of_neg (by simpa using hp)]

theorem mem_addRHit_paths (cmap : List ChunkMapEntry) (h : RHit) :
    ∀ (groups : List RGroup) (q : String),
    q ∈ (addRHit cmap groups h).map RGroup.path →
    q ∈ groups.map RGroup.path ∨ q = rhitKey h := by
  intro groups
  induction groups with
  | nil =>
    intro q hq
    right
    simpa [addRHit] using hq
  | cons g gs ih =>
    intro q hq
    by_cases hg : g.path = rhitKey h
    · simp only [addRHit, if_pos hg, List.map_cons] at hq
      rcases List.mem_cons.mp hq with hq1 | hq2
      · left
        rw [List.map_cons]
        exact List.mem_cons.mpr (Or.inl hq1)
      · left
        rw [List.map_cons]
        exact List.mem_cons.mpr (Or.inr hq2)
    · simp only [addRHit, if_neg hg, List.map_cons] at hq
      rcases List.mem_cons.mp hq with hq1 | hq2
      · left
        rw [List.map_cons]
        exact List.mem_cons.mpr (Or.inl hq1)
      · rcases ih q hq2 with hin | heq
        · left
          rw [List.map_cons]
          exact List.mem_cons.mpr (Or.inr hin)
        · right
          exact heq

theorem addRHit_paths_nodup (cmap : List ChunkMapEntry) (h : RHit) :
    ∀ (groups : List RGroup),
    (groups.map RGroup.path).Nodup →
    ((addRHit cmap groups h).map RGroup.path).Nodup := by
  intro groups
  induction groups with
  | nil =>
    intro _
    simp [addRHit]
  | cons g gs ih =>
    intro hnd
    rw [List.map_cons, List.nodup_cons] at hnd
    by_cases hg : g.path = rhitKey h
    · simp only [addRHit, if_pos hg, List.map_cons, List.nodup_cons]
      exact ⟨by simpa using hnd.1, hnd.2⟩
    · simp only [addRHit, if_neg hg, List.map_cons, List.nodup_cons]
      refine ⟨?_, ih hnd.2⟩
      intro hmem
      rcases mem_addRHit_paths cmap h gs g.path hmem with hin | heq
      · exact hnd.1 hin
      · exact hg heq

theorem foldl_addRHit_paths_nodup (cmap : List ChunkMapEntry) :
    ∀ (hits : List RHit) (groups : List RGroup),
    (groups.map RGroup.path).Nodup →
    ((hits.foldl (addRHit cmap) groups).map RGroup.path).Nodup := by
  intro hits
  induction hits with
  | nil => intro groups hg; exact hg
  | cons h t ih =>
    intro groups hg
    exact ih _ (addRHit_paths_nodup cmap h groups hg)

theorem find?_path_eq_of_mem {β : Type} (path : β → String) :
    ∀ {l : List β}, ((l.map path).Nodup) → ∀ {g : β}, g ∈ l →
    l.find? (fun x => path x = path g) = some g := by
  intro l
  induction l with
  | nil => intro _ g hg; cases hg
  | cons a t ih =>
    intro hnd g hg
    rw [List.map_cons, List.nodup_cons] at hnd
    by_cases hag : path a = path g
    · rw [List.find?_cons_of_pos _ (by simpa using hag)]
      rcases List.mem_cons.mp hg with rfl | hgt
      · rfl
      · exact absurd (by rw [hag]; exact List.mem_map_of_mem path hgt) hnd.1
    · rw [List.find?_cons_of_neg _ (by simpa using hag)]
      rcases List.mem_cons.mp hg with rfl | hgt
      · exact absurd rfl hag
      · exact ih hnd.2 hgt

theorem expandToParent_score_is_max (chunkMap : List ChunkMapEntry)
    (hits : List RHit) (r : RFile)
    (hr : r ∈ expandToParent hits chunkMap none) :
    (∃ h ∈ hits, rhitKey h = r.path ∧ h.score = r.score) ∧
    (∀ h ∈ hits, rhitKey h = r.path → h.score ≤ r.score) := by
  simp only [expandToParent] at hr
  rcases List.mem_map.mp hr with ⟨g, hgs, rfl⟩
  have hgg : g ∈ hits.foldl (addRHit chunkMap) [] := mem_sortDesc.mp hgs
  have hnd : ((hits.foldl (addRHit chunkMap) []).map RGroup.path).Nodup :=
    foldl_addRHit_paths_nodup chunkMap hits [] (by simp)
  have hfind : (hits.foldl (addRHit chunkMap) []).find?
      (fun x => x.path = g.path) = some g :=
    find?_path_eq_of_mem RGroup.path hnd hgg
  have hscore : rgScore? (hits.foldl (addRHit chunkMap) []) g.path =
      some g.score := by
    unfold rgScore?
    rw [hfind]
    rfl
  rw [rgScore?_foldl] at hscore
  have hscore' : maxRun none
      ((hits.filter (fun h => rhitKey h = g.path)).map RHit.score) =
      some g.score := hscore
  constructor
  · rcases maxRun_mem _ none g.score hscore' with hmem | habs
    · rcases List.mem_map.mp hmem with ⟨h0, hh0, he⟩
      have hh0' := List.mem_filter.mp hh0
      exact ⟨h0, hh0'.1, by simpa using hh0'.2, he⟩
    · cases habs
  · intro h0 hh0 hkey
    have hin : h0.score ∈
        (hits.filter (fun h => rhitKey h = g.path)).map RHit.score :=
      List.mem_map_of_mem RHit.score
        (List.mem_filter.mpr ⟨hh0, by simpa using hkey⟩)
    exact maxRun_ge _ none g.score h0.score hscore' hin

/-- Best score of the local group keyed `p`, when one exists. -/
def fgScore? (groups : List FileGroup) (p : String) : Option Rat :=
  (groups.find? (fun g => g.path = p)).map FileGroup.bestScore

/-- Score of the first hit with the given grouping key, when one exists. -/
def firstScore (hits : List LHit) (p : String) : Option Rat :=
  ((hits.filter (fun h => lhitKey h = p)).head?).map LHit.score

theorem fgScore?_addLHit (m : Nat) (h : LHit) :
    ∀ (groups : List FileGroup) (p : String),
    fgScore? (addLHit m groups h) p =
      if lhitKey h = p then some ((fgScore? groups p).getD h.score)
      else fgScore? groups p := by
  intro groups
  induction groups with
  | nil =>
    intro p
    by_cases hp : lhitKey h = p
    · rw [if_pos hp]
      unfold fgScore? addLHit
      rw [List.find?_cons_of_pos _ (by simpa using hp)]
      rfl
    · rw [if_neg hp]
      unfold fgScore? addLHit
      rw [List.find?_cons_of_neg _ (by simpa using hp)]
  | cons g gs ih =>
    intro p
    by_cases hg : g.path = lhitKey h
    · by_cases hgp : g.path = p
      · have hp : lhitKey h = p := by rw [← hg, hgp]
        rw [if_pos hp]
        unfold fgScore?
        simp only [addLHit]
        rw [if_pos hg]
        rw [List.find?_cons_of_pos _ (by split <;> simpa using hgp)]
        rw [List.find?_cons_of_pos _ (by simpa using hgp)]
        split <;> rfl
      · have hp : ¬(lhitKey h = p) := by rw [← hg]; exact hgp
        rw [if_neg hp]
        unfold fgScore?
        simp only [addLHit]
        rw [if_pos hg]
        rw [List.find?_cons_of_neg _ (by split <;> simpa using hgp)]
        rw [List.find?_cons_of_neg _ (by simpa using hgp)]
    · by_cases hgp : g.path = p
      · have hp : ¬(lhitKey h = p) := by
          intro he
          exact hg (by rw [he, hgp])
        rw [if_neg hp]
        unfold fgScore?
        simp only [addLHit]
        rw [if_neg hg]
        rw [List.find?_cons_of_pos _ (by simpa using hgp)]
        rw [List.find?_cons_of_pos _ (by simpa using hgp)]
      · unfold fgScore?
        simp only [addLHit]
        rw [if_neg hg]
        rw [List.find?_cons_of_neg _ (by simpa using hgp)]
        rw [List.find?_cons_of_neg _ (by simpa using hgp)]
        exact ih p

theorem fgScore?_foldl (m : Nat) :
    ∀ (hits : List LHit) (groups : List FileGroup) (p : String),
    fgScore? (hits.foldl (addLHit m) groups) p =
      match fgScore? groups p with
      | some s => some s
      | none => firstScore hits p := by
  intro hits
  induction hits with
  | nil =>
    intro groups p
    cases hfg : fgScore? groups p <;> simp [firstScore, hfg]
  | cons h t ih =>
    intro groups p
    show fgScore? (t.foldl (addLHit m) (addLHit m groups h)) p = _
    rw [ih (addLHit m groups h) p, fgScore?_addLHit m h groups p]
    by_cases hp : lhitKey h = p
    · rw [if_pos hp]
      cases hfg : fgScore? groups p with
      | some s => simp [hfg]
      | none =>
        simp only [hfg, Option.getD_none]
        unfold firstScore
        rw [List.filter_cons_of_pos (by simpa using hp)]
        rfl
    · rw [if_neg hp]
      cases hfg : fgScore? groups p with
      | some s => simp [hfg]
      | none =>
        simp only [hfg]
        unfold firstScore
        rw [List.filter_cons_of_neg (by simpa using hp)]

theorem mem_addLHit_paths (m : Nat) (h : LHit) :
    ∀ (groups : List FileGroup) (q : String),
    q ∈ (addLHit m groups h).map FileGroup.path →
    q ∈ groups.map FileGroup.path ∨ q = lhitKey h := by
  intro groups
  induction groups with
  | nil =>
    intro q hq
    right
    simpa [addLHit] using hq
  | cons g gs ih =>
    intro q hq
    by_cases hg : g.path = lhitKey h
    · simp only [addLHit, if_pos hg, List.map_cons] at hq
      rcases List.mem_cons.mp hq with hq1 | hq2
      · left
        rw [List.map_cons]
        refine List.mem_cons.mpr (Or.inl ?_)
        revert hq1
        split <;> exact id
      · left
        rw [List.map_cons]
        exact List.mem_cons.mpr (Or.inr hq2)
    · simp only [addLHit, if_neg hg, List.map_cons] at hq
      rcases List.mem_cons.mp hq with hq1 | hq2
      · left
        rw [List.map_cons]
        exact List.mem_cons.mpr (Or.inl hq1)
      · rcases ih q hq2 with hin | heq
        · left
          rw [List.map_cons]
          exact List.mem_cons.mpr (Or.inr hin)
        · right
          exact heq

theorem addLHit_paths_nodup (m : Nat) (h : LHit) :
    ∀ (groups : List FileGroup),
    (groups.map FileGroup.path).Nodup →
    ((addLHit m groups h).map FileGroup.path).Nodup := by
  intro groups
  induction groups with
  | nil =>
    intro _
    simp [addLHit]
  | cons g gs ih =>
    intro hnd
    rw [List.map_cons, List.nodup_cons] at hnd
    by_cases hg : g.path = lhitKey h
    · simp only [addLHit, if_pos hg, List.map_cons, List.nodup_cons]
      constructor
      · split <;> simpa using hnd.1
      · exact hnd.2
    · simp only [addLHit, if_neg hg, List.map_cons, List.nodup_cons]
      refine ⟨?_, ih hnd.2⟩
      intro hmem
      rcases mem_addLHit_paths m h gs g.path hmem with hin | heq
      · exact hnd.1 hin
      · exact hg heq

theorem foldl_addLHit_paths_nodup (m : Nat) :
    ∀ (hits : List LHit) (groups : List FileGroup),
    (groups.map FileGroup.path).Nodup →
    ((hits.foldl (addLHit m) groups).map FileGroup.path).Nodup := by
  intro hits
  induction hits with
  | nil => intro groups hg; exact hg
  | cons h t ih =>
    intro groups hg
    exact ih _ (addLHit_paths_nodup m h groups hg)

theorem groupResultsByFile_first_is_max (hits : List LHit)
    (hsorted : List.Pairwise (fun a b => b.score ≤ a.score) hits)
    (g : FileGroup) (hg : g ∈ groupResultsByFile hits) :
    (∃ h ∈ hits, lhitKey h = g.path ∧ h.score = g.bestScore) ∧
    (∀ h ∈ hits, lhitKey h = g.path → h.score ≤ g.bestScore) := by
  unfold groupResultsByFile at hg
  have hgg : g ∈ hits.foldl (addLHit 3) [] := mem_sortDesc.mp hg
  have hnd : ((hits.foldl (addLHit 3) []).map FileGroup.path).Nodup :=
    foldl_addLHit_paths_nodup 3 hits [] (by simp)
  have hfind : (hits.foldl (addLHit 3) []).find? (fun x => x.path = g.path) =
      some g :=
    find?_path_eq_of_mem FileGroup.path hnd hgg
  have hscore : fgScore? (hits.foldl (addLHit 3) []) g.path =
      some g.bestScore := by
    unfold fgScore?
    rw [hfind]
    rfl
  rw [fgScore?_foldl] at hscore
  have hfs : firstScore hits g.path = some g.bestScore := hscore
  unfold firstScore at hfs
  rcases hfl : hits.filter (fun h => lhitKey h = g.path) with _ | ⟨h0, rest⟩
  · rw [hfl] at hfs
    cases hfs
  · rw [hfl] at hfs
    have h0s : h0.score = g.bestScore := by
      simpa using hfs
    have h0mem : h0 ∈ hits.filter (fun h => lhitKey h = g.path) := by
      rw [hfl]
      exact List.mem_cons_self h0 rest
    have hpf : List.Pairwise (fun a b => b.score ≤ a.score)
        (hits.filter (fun h => lhitKey h = g.path)) :=
      List.Pairwise.sublist (List.filter_sublist hits) hsorted
    constructor
    · have h0f := List.mem_filter.mp h0mem
      exact ⟨h0, h0f.1, by simpa using h0f.2, h0s⟩
    · intro h1 hh1 hk
      have h1mem : h1 ∈ hits.filter (fun h => lhitKey h = g.path) :=
        List.mem_filter.mpr ⟨hh1, by simpa using hk⟩
      rw [hfl] at h1mem hpf
      rcases List.mem_cons.mp h1mem with rfl | hrest
      · exact le_of_eq h0s
      · have := (List.pairwise_cons.mp hpf).1 h1 hrest
        rw [← h0s]
        exact this

/-- A hit of `f.js` with the lower score, first in the C8 counterexample. -/
def C8hitLow : LHit := ⟨⟨"f.js", "low chunk", "backend", "", "javascript"⟩, 1⟩

/-- A hit of `f.js` with the higher score, second in the C8 counterexample. -/
def C8hitHigh : LHit := ⟨⟨"f.js", "high chunk", "backend", "", "javascript"⟩, 5⟩

/-- C8 counterexample: `groupResultsByFile` sets a file's score from the
first contributing hit and never updates it, so on a hit set that is not
sorted descending the file's score is 1 even though a contributing chunk
scored 5 — the score is not the maximum for every possible set of input
hits. -/
theorem C8_counterexample_first_hit_not_max :
    groupResultsByFile [C8hitLow, C8hitHigh] =
      [⟨"f.js", "javascript", "backend", 1, [("low chunk", 1), ("high chunk", 5)]⟩] ∧
    ¬((5 : Rat) ≤ 1) := by decide

/-- C8 amended: in the remote grouping (`expandToParent`) every result file's
score is the maximum of its contributing hits' scores, for every input; in
the local grouping (`groupResultsByFile`) the file's score is the first
contributing hit's score, which equals that maximum whenever the hits arrive
sorted descending by score — as `hybridSearch` produces them — but not for
arbitrary hit sets (see the counterexample). -/
theorem C8_amended_group_score_semantics :
    (∀ (chunkMap : List ChunkMapEntry) (hits : List RHit) (r : RFile),
      r ∈ expandToParent hits chunkMap none →
        (∃ h ∈ hits, rhitKey h = r.path ∧ h.score = r.score) ∧
        (∀ h ∈ hits, rhitKey h = r.path → h.score ≤ r.score)) ∧
    (∀ (hits : List LHit),
      List.Pairwise (fun a b => b.score ≤ a.score) hits →
      ∀ g ∈ groupResultsByFile hits,
        (∃ h ∈ hits, lhitKey h = g.path ∧ h.score = g.bestScore) ∧
        (∀ h ∈ hits, lhitKey h = g.path → h.score ≤ g.bestScore)) :=
  ⟨fun chunkMap hits r hr => expandToParent_score_is_max chunkMap hits r hr,
   fun hits hsorted g hg => groupResultsByFile_first_is_max hits hsorted g hg⟩

/-- The remote hit used by the C8 witness. -/
def C8rhit : RHit := ⟨("f.js", 0), ⟨"f.js", "c", "backend", "", "javascript"⟩, 5⟩

/-- Witness for the amended C8 at concrete inputs on both paths. -/
theorem C8_amended_group_score_witness :
    (((∃ h ∈ [C8rhit], rhitKey h = "f.js" ∧ h.score = (5 : Rat)) ∧
      (∀ h ∈ [C8rhit], rhitKey h = "f.js" → h.score ≤ (5 : Rat)))) ∧
    (((∃ h ∈ [C8hitHigh, C8hitLow], lhitKey h = "f.js" ∧ h.score = (5 : Rat)) ∧
      (∀ h ∈ [C8hitHigh, C8hitLow], lhitKey h = "f.js" → h.score ≤ (5 : Rat)))) := by
  constructor
  · exact C8_amended_group_score_semantics.1 [] [C8rhit]
      ⟨"f.js", "backend", 5, [(1, 1, 5)]⟩ (by decide)
  · exact C8_amended_group_score_semantics.2 [C8hitHigh, C8hitLow] (by decide)
      ⟨"f.js", "javascript", "backend", 5, [("high chunk", 5), ("low chunk", 1)]⟩
      (by decide)
